import Mathlib

/-!
Shallow embedding of the Synacor-challenge virtual machine
(`src/main.rs`), of the memoized magic-value search (`src/routine.rs`)
and of the grid path search (`src/grid.rs`).

Machine words are modelled as `Nat`; every place where the Rust code
relies on fixed-width behaviour (`as u16` casts, `u16` bitwise not,
truncating `as u8` casts) carries an explicit `% 2 ^ w` or an explicit
subtraction from `2 ^ w - 1`.  Rust `Vec`/array indexing appears as
`List.getD`/`List.set`; the `u16` stack (a `Vec` pushed and popped at
its end) is modelled as a list pushed and popped at its head, which has
the same LIFO observable behaviour.  Fallible operations return
`Option`.
-/

/-- Destination operand of the VM: a memory address or a register index
(`enum Location` in `src/main.rs`). -/
inductive Location where
  | address (a : Nat)
  | register (r : Nat)
deriving DecidableEq, Repr

/-- Decoded instruction (`enum Instruction` in `src/main.rs`).  `Value`
operands are resolved to literals at decode time, exactly as in the
source, so they appear here as plain numbers; destination `Location`s
are carried symbolically.  `In` is renamed `inp` (`in` is reserved). -/
inductive Instruction where
  | halt
  | set (r : Nat) (v : Nat)
  | push (v : Nat)
  | pop (l : Location)
  | eq (l : Location) (a b : Nat)
  | gt (l : Location) (a b : Nat)
  | jmp (a : Nat)
  | jt (v a : Nat)
  | jf (v a : Nat)
  | add (l : Location) (a b : Nat)
  | mult (l : Location) (a b : Nat)
  | mod (l : Location) (a b : Nat)
  | and (l : Location) (a b : Nat)
  | or (l : Location) (a b : Nat)
  | not (l : Location) (a : Nat)
  | rmem (l : Location) (src : Nat)
  | wmem (dst : Nat) (v : Nat)
  | call (a : Nat)
  | ret
  | out (v : Nat)
  | inp (l : Location)
  | noop
deriving DecidableEq, Repr

/-- The mutable machine state (`struct Machine` in `src/main.rs`).  The
`logger` field is omitted: it is skipped by serialization and never
affects the machine semantics.  `stdin` is the buffered queue of input
bytes. -/
structure Machine where
  mem : List Nat
  registers : List Nat
  stack : List Nat
  index : Nat
  stdin : List Nat
deriving DecidableEq, Repr

/-- `Machine::write_to_location`: store a raw word into a memory cell or
a register. -/
def write_to_location (m : Machine) (l : Location) (raw : Nat) : Machine :=
  match l with
  | .address a => { m with mem := m.mem.set a raw }
  | .register r => { m with registers := m.registers.set r raw }

/-- `Machine::pop_stack`: remove the top of the stack; `none` models the
`Err` returned on an empty stack. -/
def pop_stack (m : Machine) : Option (Nat × Machine) :=
  match m.stack with
  | [] => none
  | v :: rest => some (v, { m with stack := rest })

/-- `Machine::redo_stdin`: rewind the program counter by two cells and
push the five bytes of `look\n` onto the front of the input queue (the
source pushes them one by one in reversed order, which leaves them in
this order at the front). -/
def redo_stdin (m : Machine) : Machine :=
  { m with
      index := m.index - 2,
      stdin := 108 :: 111 :: 111 :: 107 :: 10 :: m.stdin }

/-- UTF-8 encoding of a Unicode code point, as Rust's `char` formatting
performs when a `char` is printed to stdout. -/
def utf8EncodeChar (c : Nat) : List Nat :=
  if c < 128 then [c]
  else if c < 2048 then [192 + c / 64, 128 + c % 64]
  else if c < 65536 then [224 + c / 4096, 128 + c / 64 % 64, 128 + c % 64]
  else [240 + c / 262144, 128 + c / 4096 % 64, 128 + c / 64 % 64, 128 + c % 64]

/-- `Machine::write_stdout`: `print!("{}", raw as u8 as char)`.  The
truncating `as u8` cast keeps the low 8 bits; printing the resulting
`char` writes its UTF-8 encoding to the host's stdout, which is one
byte for code points below 128 and two bytes otherwise. -/
def write_stdout (raw : Nat) : List Nat :=
  utf8EncodeChar (raw % 256)

/-- Result of executing one decoded instruction in `Machine::run`. -/
inductive StepResult where
  /-- The loop continues with the new state, having emitted `out` bytes. -/
  | next (m : Machine) (out : List Nat)
  /-- `run` returns `Ok(())`: clean termination, process exit code 0. -/
  | halted
  /-- `run` returns `Err(..)` (or the process panics, for `MOD` by zero):
  abnormal termination, not a clean halt. -/
  | fatal
  /-- `IN` found the buffered queue empty: the loop blocks on a host line
  read before the instruction can finish. -/
  | host (m : Machine) (l : Location)
deriving DecidableEq, Repr

/-- One iteration of the executor loop in `Machine::run`, applied to an
already decoded instruction.  `CALL` pushes `self.index as u16`, hence
the `% 65536`; `NOT` is `u16` complement (`65535 - a` for `a ≤ 65535`)
masked to 15 bits; `MOD` by zero panics in Rust, modelled as `fatal`. -/
def step (m : Machine) : Instruction → StepResult
  | .halt => .halted
  | .set r v => .next { m with registers := m.registers.set r v } []
  | .push v => .next { m with stack := v :: m.stack } []
  | .pop l =>
    match pop_stack m with
    | some (v, m') => .next (write_to_location m' l v) []
    | none => .fatal
  | .eq l a b => .next (write_to_location m l (if a = b then 1 else 0)) []
  | .gt l a b => .next (write_to_location m l (if b < a then 1 else 0)) []
  | .jmp a => .next { m with index := a } []
  | .jt v a => .next (if v ≠ 0 then { m with index := a } else m) []
  | .jf v a => .next (if v = 0 then { m with index := a } else m) []
  | .add l a b => .next (write_to_location m l ((a + b) % 32768)) []
  | .mult l a b => .next (write_to_location m l ((a * b) % 32768)) []
  | .mod l a b =>
    if b = 0 then .fatal else .next (write_to_location m l (a % b)) []
  | .and l a b => .next (write_to_location m l (a &&& b)) []
  | .or l a b => .next (write_to_location m l (a ||| b)) []
  | .not l a => .next (write_to_location m l ((65535 - a) &&& 32767)) []
  | .rmem l src => .next (write_to_location m l (m.mem.getD src 0)) []
  | .wmem dst v => .next { m with mem := m.mem.set dst v } []
  | .call a => .next { m with stack := m.index % 65536 :: m.stack, index := a } []
  | .ret =>
    match pop_stack m with
    | some (v, m') => .next { m' with index := v } []
    | none => .fatal
  | .out v => .next m (write_stdout v)
  | .inp l =>
    match m.stdin with
    | b :: rest => .next (write_to_location { m with stdin := rest } l b) []
    | [] => .host m l
  | .noop => .next m []

example : step { mem := [], registers := [], stack := [7], index := 0, stdin := [] } .ret =
    .next { mem := [], registers := [], stack := [], index := 7, stdin := [] } [] := by decide

example : write_stdout 65 = [65] := by decide

example : write_stdout 128 = [194, 128] := by decide

/-- `Register::new`: raw cells 32768..=32775 name registers 0..=7. -/
def registerNew (w : Nat) : Option Nat :=
  if 32768 ≤ w ∧ w ≤ 32775 then some (w - 32768) else none

/-- `enum Value`: a decoded source operand, either a literal or the name
of a register whose contents are to be read as a literal. -/
inductive Value where
  | literal (v : Nat)
  | literalAtRegister (r : Nat)
deriving DecidableEq, Repr

/-- `Value::new`: classify a raw cell. -/
def valueNew (w : Nat) : Option Value :=
  if w ≤ 32767 then some (.literal w)
  else if w ≤ 32775 then some (.literalAtRegister (w - 32768))
  else none

/-- `Location::new`: classify a raw cell. -/
def locationNew (w : Nat) : Option Location :=
  if w ≤ 32767 then some (.address w)
  else if w ≤ 32775 then some (.register (w - 32768))
  else none

/-- `Machine::eval_register`: current contents of a register. -/
def eval_register (m : Machine) (r : Nat) : Nat :=
  m.registers.getD r 0

/-- `Machine::eval_value`: a literal operand is itself; a register
operand is the register's contents, validated by `Literal::new` to be
at most 32767. -/
def eval_value (m : Machine) : Value → Option Nat
  | .literal v => some v
  | .literalAtRegister r =>
    if eval_register m r ≤ 32767 then some (eval_register m r) else none

/-- `Machine::eval_location`: an address operand is itself; a register
operand is the register's contents, validated by `Address::new` to be
at most 32767. -/
def eval_location (m : Machine) : Location → Option Nat
  | .address a => some a
  | .register r =>
    if eval_register m r ≤ 32767 then some (eval_register m r) else none

/-- Program counter advanced past `k` cells.  The source's `read_mem`
increments `index` once per cell read; reading the cells at
`index, index+1, ...` and advancing once at the end is equivalent
because nothing else observes `index` during decoding. -/
def Machine.advance (m : Machine) (k : Nat) : Machine :=
  { m with index := m.index + k }

/-- The patch hook at the top of `Machine::read_instruction`: before the
opcode fetch, if the program counter is 0x178B and register 7 holds 1,
overwrite memory cell 0x178B with 18 (the RET opcode), set register 0
to 6 and register 7 to 0x6486. -/
def patch_hook (m : Machine) : Machine :=
  if m.index = 0x178b ∧ m.registers.getD 7 0 = 1 then
    { m with
        mem := m.mem.set 0x178b 18,
        registers := (m.registers.set 0 6).set 7 0x6486 }
  else m

/-- The cell-reading part of `Machine::read_instruction` (everything
after the patch hook; the logger writes never change the machine):
classify the opcode, read and resolve its operands left to right.
`none` models both a decode `Err` (weird opcode, register, value or
location) and an out-of-bounds opcode fetch.  Reading never writes, so
only the final program counter (handled in `decode` below) changes. -/
def decodeInstr (m : Machine) : Option Instruction :=
  match m.mem.get? m.index with
  | none => none
  | some op =>
    if op = 0 then some .halt
    else if op = 1 then do
      let rw ← m.mem.get? (m.index + 1)
      let r ← registerNew rw
      let vw ← m.mem.get? (m.index + 2)
      let v ← valueNew vw
      let lit ← eval_value m v
      pure (Instruction.set r lit)
    else if op = 2 then do
      let vw ← m.mem.get? (m.index + 1)
      let v ← valueNew vw
      let lit ← eval_value m v
      pure (Instruction.push lit)
    else if op = 3 then do
      let lw ← m.mem.get? (m.index + 1)
      let l ← locationNew lw
      pure (Instruction.pop l)
    else if op = 4 then do
      let lw ← m.mem.get? (m.index + 1)
      let l ← locationNew lw
      let aw ← m.mem.get? (m.index + 2)
      let av ← valueNew aw
      let a ← eval_value m av
      let bw ← m.mem.get? (m.index + 3)
      let bv ← valueNew bw
      let b ← eval_value m bv
      pure (Instruction.eq l a b)
    else if op = 5 then do
      let lw ← m.mem.get? (m.index + 1)
      let l ← locationNew lw
      let aw ← m.mem.get? (m.index + 2)
      let av ← valueNew aw
      let a ← eval_value m av
      let bw ← m.mem.get? (m.index + 3)
      let bv ← valueNew bw
      let b ← eval_value m bv
      pure (Instruction.gt l a b)
    else if op = 6 then do
      let lw ← m.mem.get? (m.index + 1)
      let l ← locationNew lw
      let a ← eval_location m l
      pure (Instruction.jmp a)
    else if op = 7 then do
      let vw ← m.mem.get? (m.index + 1)
      let v ← valueNew vw
      let lit ← eval_value m v
      let lw ← m.mem.get? (m.index + 2)
      let l ← locationNew lw
      let a ← eval_location m l
      pure (Instruction.jt lit a)
    else if op = 8 then do
      let vw ← m.mem.get? (m.index + 1)
      let v ← valueNew vw
      let lit ← eval_value m v
      let lw ← m.mem.get? (m.index + 2)
      let l ← locationNew lw
      let a ← eval_location m l
      pure (Instruction.jf lit a)
    else if op = 9 then do
      let lw ← m.mem.get? (m.index + 1)
      let l ← locationNew lw
      let aw ← m.mem.get? (m.index + 2)
      let av ← valueNew aw
      let a ← eval_value m av
      let bw ← m.mem.get? (m.index + 3)
      let bv ← valueNew bw
      let b ← eval_value m bv
      pure (Instruction.add l a b)
    else if op = 10 then do
      let lw ← m.mem.get? (m.index + 1)
      let l ← locationNew lw
      let aw ← m.mem.get? (m.index + 2)
      let av ← valueNew aw
      let a ← eval_value m av
      let bw ← m.mem.get? (m.index + 3)
      let bv ← valueNew bw
      let b ← eval_value m bv
      pure (Instruction.mult l a b)
    else if op = 11 then do
      let lw ← m.mem.get? (m.index + 1)
      let l ← locationNew lw
      let aw ← m.mem.get? (m.index + 2)
      let av ← valueNew aw
      let a ← eval_value m av
      let bw ← m.mem.get? (m.index + 3)
      let bv ← valueNew bw
      let b ← eval_value m bv
      pure (Instruction.mod l a b)
    else if op = 12 then do
      let lw ← m.mem.get? (m.index + 1)
      let l ← locationNew lw
      let aw ← m.mem.get? (m.index + 2)
      let av ← valueNew aw
      let a ← eval_value m av
      let bw ← m.mem.get? (m.index + 3)
      let bv ← valueNew bw
      let b ← eval_value m bv
      pure (Instruction.and l a b)
    else if op = 13 then do
      let lw ← m.mem.get? (m.index + 1)
      let l ← locationNew lw
      let aw ← m.mem.get? (m.index + 2)
      let av ← valueNew aw
      let a ← eval_value m av
      let bw ← m.mem.get? (m.index + 3)
      let bv ← valueNew bw
      let b ← eval_value m bv
      pure (Instruction.or l a b)
    else if op = 14 then do
      let lw ← m.mem.get? (m.index + 1)
      let l ← locationNew lw
      let aw ← m.mem.get? (m.index + 2)
      let av ← valueNew aw
      let a ← eval_value m av
      pure (Instruction.not l a)
    else if op = 15 then do
      let lw ← m.mem.get? (m.index + 1)
      let l ← locationNew lw
      let sw ← m.mem.get? (m.index + 2)
      let sl ← locationNew sw
      let src ← eval_location m sl
      pure (Instruction.rmem l src)
    else if op = 16 then do
      let dw ← m.mem.get? (m.index + 1)
      let dl ← locationNew dw
      let dst ← eval_location m dl
      let sw ← m.mem.get? (m.index + 2)
      let sv ← valueNew sw
      let src ← eval_value m sv
      pure (Instruction.wmem dst src)
    else if op = 17 then do
      let lw ← m.mem.get? (m.index + 1)
      let l ← locationNew lw
      let a ← eval_location m l
      pure (Instruction.call a)
    else if op = 18 then some .ret
    else if op = 19 then do
      let vw ← m.mem.get? (m.index + 1)
      let v ← valueNew vw
      let lit ← eval_value m v
      pure (Instruction.out lit)
    else if op = 20 then do
      let lw ← m.mem.get? (m.index + 1)
      let l ← locationNew lw
      pure (Instruction.inp l)
    else if op = 21 then some .noop
    else none

/-- Number of cells (opcode plus operands) each instruction occupies;
these are exactly the `index_offset` values the source passes to
`maybe_write_to_logger` in each decode branch. -/
def instrSize : Instruction → Nat
  | .halt => 1
  | .set _ _ => 3
  | .push _ => 2
  | .pop _ => 2
  | .eq _ _ _ => 4
  | .gt _ _ _ => 4
  | .jmp _ => 2
  | .jt _ _ => 3
  | .jf _ _ => 3
  | .add _ _ _ => 4
  | .mult _ _ _ => 4
  | .mod _ _ _ => 4
  | .and _ _ _ => 4
  | .or _ _ _ => 4
  | .not _ _ => 3
  | .rmem _ _ => 3
  | .wmem _ _ => 3
  | .call _ => 2
  | .ret => 1
  | .out _ => 2
  | .inp _ => 2
  | .noop => 1


/-- The fetch/decode part of `Machine::read_instruction` after the
patch hook.  The source's `read_mem` increments `index` once per cell
read and nothing else observes `index` during decoding, so the decoded
machine is the input machine with the program counter advanced past the
instruction's cells. -/
def decode (m : Machine) : Option (Instruction × Machine) :=
  (decodeInstr m).map (fun i => (i, m.advance (instrSize i)))

/-- `Machine::read_instruction`: patch hook, then fetch and decode. -/
def read_instruction (m : Machine) : Option (Instruction × Machine) :=
  decode (patch_hook m)

/-- One full iteration of `Machine::run`: fetch, decode, execute. -/
def cycle (m : Machine) : StepResult :=
  match read_instruction m with
  | some (i, m') => step m' i
  | none => .fatal

/-- Group the bytes of the program image into little-endian 16-bit
words (`chunks_exact(2)` drops a trailing odd byte). -/
def toWords : List Nat → List Nat
  | b0 :: b1 :: rest => (b0 + 256 * b1) :: toWords rest
  | _ => []

/-- Store successive words into memory starting at a given address. -/
def loadWords (mem : List Nat) (ws : List Nat) (i : Nat) : List Nat :=
  match ws with
  | [] => mem
  | w :: rest => loadWords (mem.set i w) rest (i + 1)

/-- `Machine::new`: 32768 zeroed memory cells overwritten from address 0
with the little-endian words of the program image; eight zeroed
registers; empty stack, program counter 0, empty input queue. -/
def Machine.new (program : List Nat) : Machine :=
  { mem := loadWords (List.replicate 32768 0) (toWords program) 0,
    registers := List.replicate 8 0,
    stack := [],
    index := 0,
    stdin := [] }

example : decode { mem := [18, 0], registers := [], stack := [], index := 0, stdin := [] } =
    some (.ret, { mem := [18, 0], registers := [], stack := [], index := 1, stdin := [] }) := by
  decide

example : decode { mem := [20, 32768], registers := [], stack := [], index := 0, stdin := [] } =
    some (.inp (.register 0),
      { mem := [20, 32768], registers := [], stack := [], index := 2, stdin := [] }) := by
  decide

/-- Decoding reads cells but never writes: memory, registers, stack and
input queue are unchanged, and the program counter advances by exactly
the decoded instruction's size. -/
theorem decode_frame (m : Machine) (i : Instruction) (m' : Machine)
    (h : decode m = some (i, m')) :
    m'.mem = m.mem ∧ m'.registers = m.registers ∧ m'.stack = m.stack ∧
      m'.stdin = m.stdin ∧ m'.index = m.index + instrSize i := by
  unfold decode at h
  cases hd : decodeInstr m with
  | none => rw [hd] at h; exact Option.noConfusion h
  | some i0 =>
    rw [hd] at h
    simp only [Option.map_some', Option.some.injEq, Prod.mk.injEq] at h
    obtain ⟨rfl, rfl⟩ := h
    simp [Machine.advance]

theorem getD_set_self (l : List Nat) (i v : Nat) (h : i < l.length) :
    (l.set i v).getD i 0 = v := by
  simp [List.getD_eq_getElem?_getD, List.getElem?_set_self h]

theorem getD_set_ne (l : List Nat) (i v k : Nat) (h : k ≠ i) :
    (l.set i v).getD k 0 = l.getD k 0 := by
  simp [List.getD_eq_getElem?_getD, List.getElem?_set_ne (Ne.symm h)]

/-- A cell whose default-read changed under a `set` was the cell that
was set, and now reads the stored value. -/
theorem getD_set_changed (l : List Nat) (i v k : Nat)
    (h : (l.set i v).getD k 0 ≠ l.getD k 0) : (l.set i v).getD k 0 = v := by
  rcases eq_or_ne k i with rfl | hne
  · by_cases hlt : k < l.length
    · exact getD_set_self _ _ _ hlt
    · rw [List.set_eq_of_length_le (Nat.le_of_not_lt hlt)] at h
      exact absurd rfl h
  · rw [getD_set_ne _ _ _ _ hne] at h
    exact absurd rfl h

/-- Reading back a destination location (memory cell or register). -/
def readLoc (m : Machine) (l : Location) : Nat :=
  match l with
  | .address a => m.mem.getD a 0
  | .register r => m.registers.getD r 0

/-- A destination is in range: addresses within the 32768-cell memory,
registers within the 8-register file — what decoding guarantees. -/
def Location.ok : Location → Bool
  | .address a => a < 32768
  | .register r => r < 8

/-- Writing to an in-range destination and reading it back yields the
written value. -/
theorem readLoc_write (m : Machine) (l : Location) (v : Nat)
    (hm : m.mem.length = 32768) (hr : m.registers.length = 8)
    (hl : l.ok = true) : readLoc (write_to_location m l v) l = v := by
  cases l with
  | address a =>
    simp only [Location.ok, decide_eq_true_eq] at hl
    simp only [readLoc, write_to_location]
    exact getD_set_self _ _ _ (by omega)
  | register r =>
    simp only [Location.ok, decide_eq_true_eq] at hl
    simp only [readLoc, write_to_location]
    exact getD_set_self _ _ _ (by omega)

/-- The machine a `next` step result continues with, if any. -/
def nextOf : StepResult → Option Machine
  | .next m _ => some m
  | _ => none

/-- C1.  The claim says a `RET` with an empty stack terminates execution
successfully (HALT-equivalent, exit code 0).  It does not: `Machine::run`
executes `RET` as `self.pop_stack()?`, and `pop_stack` on an empty stack
returns an `Err`, which propagates out of `run` as a fatal error.  Here,
on the reachable initial machine for the two-byte image `[18, 0]`
(memory cell 0 holds 18, the RET opcode; the stack is empty), one
fetch-decode-execute cycle ends `fatal`, not `halted`. -/
theorem c1_counterexample :
    cycle (Machine.new [18, 0]) = StepResult.fatal ∧
      (Machine.new [18, 0]).stack = [] ∧ StepResult.fatal ≠ StepResult.halted := by
  refine ⟨by decide, rfl, by decide⟩

/-- C1 (amended).  Executing `RET` in any machine state whose stack is
empty is a fatal error — the `Err` from `pop_stack` propagates and
`run` terminates abnormally — exactly like `POP` from an empty stack,
not a clean HALT-equivalent termination. -/
theorem c1_amended (m : Machine) (h : m.stack = []) :
    step m Instruction.ret = StepResult.fatal := by
  simp [step, pop_stack, h]

theorem c1_witness : step (Machine.new []) Instruction.ret = StepResult.fatal :=
  c1_amended (Machine.new []) rfl

/-- C4.  The claim says `OUT v` always emits exactly one byte, equal to
`v mod 256`, including when `v mod 256 ≥ 128`.  It does not:
`write_stdout` prints `raw as u8 as char`, and printing a `char` with
code point 128..=255 writes its two-byte UTF-8 encoding.  At `v = 128`
the emitted bytes are `[194, 128]`, not the single byte `[128]`. -/
theorem c4_counterexample :
    write_stdout 128 = [194, 128] ∧ write_stdout 128 ≠ [128] ∧
      (write_stdout 128).length ≠ 1 := by
  refine ⟨by decide, by decide, by decide⟩

/-- C4 (amended).  `OUT v` emits the UTF-8 encoding of the Unicode code
point `v mod 256`: exactly one byte equal to `v mod 256` when
`v mod 256 < 128`, and otherwise exactly two bytes,
`192 + (v mod 256) / 64` followed by `128 + (v mod 256) mod 64`. -/
theorem c4_amended (v : Nat) :
    write_stdout v =
      if v % 256 < 128 then [v % 256]
      else [192 + v % 256 / 64, 128 + v % 256 % 64] := by
  have h256 : v % 256 < 256 := Nat.mod_lt _ (by norm_num)
  rcases Nat.lt_or_ge (v % 256) 128 with h | h
  · simp [write_stdout, utf8EncodeChar, h]
  · have h1 : ¬ v % 256 < 128 := Nat.not_lt.2 h
    have h2 : v % 256 < 2048 := by omega
    simp [write_stdout, utf8EncodeChar, h1, h2]

/-- C3.  For in-range operand literals `a`, `b`, executing ADD, MULT,
MOD and NOT against any machine with the real memory and register
shapes stores at the destination exactly `(a+b) mod 32768`,
`(a*b) mod 32768` (the product computed exactly, in unbounded
arithmetic), `a mod b` whenever `b > 0`, and the 15-bit-masked
complement of `a` - whose bit 15 is 0.  The `b > 0` proviso scopes only
the MOD conclusion, as in the claim. -/
theorem c3_arith (m : Machine) (dst : Location) (a b : Nat)
    (hm : m.mem.length = 32768) (hr : m.registers.length = 8)
    (hdst : dst.ok = true) (_ha : a ≤ 32767) (_hb : b ≤ 32767) :
    ((nextOf (step m (.add dst a b))).map (fun mm => readLoc mm dst) =
        some ((a + b) % 32768)) ∧
    ((nextOf (step m (.mult dst a b))).map (fun mm => readLoc mm dst) =
        some ((a * b) % 32768)) ∧
    (0 < b →
      (nextOf (step m (.mod dst a b))).map (fun mm => readLoc mm dst) =
        some (a % b)) ∧
    ((nextOf (step m (.not dst a))).map (fun mm => readLoc mm dst) =
        some ((65535 - a) % 32768)) ∧
    ((nextOf (step m (.not dst a))).map
        (fun mm => Nat.testBit (readLoc mm dst) 15) = some false) := by
  have hmask : (65535 - a) &&& 32767 = (65535 - a) % 32768 := by
    simpa using Nat.and_pow_two_sub_one_eq_mod (65535 - a) 15
  refine ⟨?_, ?_, ?_, ?_, ?_⟩
  · simp [step, nextOf, readLoc_write m dst _ hm hr hdst]
  · simp [step, nextOf, readLoc_write m dst _ hm hr hdst]
  · intro hb0
    have hb' : b ≠ 0 := Nat.pos_iff_ne_zero.mp hb0
    simp [step, nextOf, hb', readLoc_write m dst _ hm hr hdst]
  · simp [step, nextOf]
    rw [readLoc_write m dst _ hm hr hdst, hmask]
  · simp [step, nextOf]
    rw [readLoc_write m dst _ hm hr hdst, hmask]
    exact Nat.testBit_lt_two_pow (by omega)

theorem loadWords_length (ws : List Nat) (mem : List Nat) (i : Nat) :
    (loadWords mem ws i).length = mem.length := by
  induction ws generalizing mem i with
  | nil => rfl
  | cons w rest ih => simp [loadWords, ih]

theorem machineNew_mem_length (p : List Nat) : (Machine.new p).mem.length = 32768 := by
  show (loadWords (List.replicate 32768 0) (toWords p) 0).length = 32768
  rw [loadWords_length, List.length_replicate]

theorem machineNew_registers_length (p : List Nat) :
    (Machine.new p).registers.length = 8 := by
  show (List.replicate 8 0).length = 8
  rw [List.length_replicate]

theorem c3_witness :
    (((nextOf (step (Machine.new []) (.add (.register 0) 5 3))).map
        (fun mm => readLoc mm (.register 0)) = some ((5 + 3) % 32768)) ∧
    ((nextOf (step (Machine.new []) (.mult (.register 0) 5 3))).map
        (fun mm => readLoc mm (.register 0)) = some ((5 * 3) % 32768)) ∧
    (0 < 3 →
      (nextOf (step (Machine.new []) (.mod (.register 0) 5 3))).map
        (fun mm => readLoc mm (.register 0)) = some (5 % 3)) ∧
    ((nextOf (step (Machine.new []) (.not (.register 0) 5))).map
        (fun mm => readLoc mm (.register 0)) = some ((65535 - 5) % 32768)) ∧
    ((nextOf (step (Machine.new []) (.not (.register 0) 5))).map
        (fun mm => Nat.testBit (readLoc mm (.register 0)) 15) = some false)) :=
  c3_arith (Machine.new []) (.register 0) 5 3
    (machineNew_mem_length []) (machineNew_registers_length [])
    (by decide) (by decide) (by decide)

/-- Register file of a `next` step result, if any. -/
def resultRegisters (r : StepResult) (k : Nat) : Option Nat :=
  match r with
  | .next m _ => some (m.registers.getD k 0)
  | _ => none

/-- The program image whose words are `15, 32768, 4, 0, 40000`:
`RMEM r0, (address 4)` where memory cell 4 holds the raw value 40000
(loaded verbatim from the little-endian image, as any cell above 32767
is). -/
def c2Program : List Nat := [15, 0, 0, 128, 4, 0, 0, 0, 64, 156]

/-- The post-decode state of a `CALL` whose opcode cell sits at address
32766: the opcode occupies cell 32766 and its operand cell 32767, so by
`decode_frame` (with `instrSize (.call _) = 2`) the decoded machine's
program counter is 32768.  Executing the `CALL` pushes
`self.index as u16 = 32768` onto the stack. -/
def c2CallMachine : Machine :=
  { mem := [], registers := List.replicate 8 0, stack := [],
    index := 32768, stdin := [] }

/-- `c2CallMachine` after its `CALL 100` executed: 32768 is on the
stack. -/
def c2PopMachine : Machine :=
  { mem := [], registers := List.replicate 8 0, stack := [32768],
    index := 100, stdin := [] }

/-- C2.  The claim says every value an instruction writes to a register
or memory cell is at most 32767, explicitly including RMEM.  It is not,
twice over.  First, `RMEM` copies the raw 16-bit memory cell unreduced:
on the reachable initial machine for `c2Program`, one
fetch-decode-execute cycle (the `RMEM r0, 4` at address 0) leaves 40000
in register 0.  Second, a `CALL` fetched at address 32766 has
post-decode program counter 32768 (`decode_frame`), pushes that value,
and a subsequent `POP` writes 32768 — above 32767 — into a register. -/
theorem c2_counterexample :
    (resultRegisters (cycle (Machine.new c2Program)) 0 = some 40000 ∧
      ¬ 40000 ≤ 32767) ∧
    (step c2CallMachine (.call 100) = .next c2PopMachine [] ∧
      resultRegisters (step c2PopMachine (.pop (.register 0))) 0 =
        some 32768 ∧
      ¬ 32768 ≤ 32767) := by
  refine ⟨⟨by decide, by decide⟩, by decide, by decide, by decide⟩

/-- Instructions whose stored value is copied from machine state rather
than produced by a reducing operation: `RMEM` copies a raw memory cell,
`POP` copies a raw stack word.  Both can carry values above 32767 (see
the counterexample). -/
def Instruction.copiesRaw : Instruction → Bool
  | .rmem _ _ => true
  | .pop _ => true
  | _ => false

/-- The bounds decoding guarantees for the resolved source operands it
embeds in an instruction: every `Value` operand was validated by
`Literal::new` to be at most 32767. -/
def Instruction.litsOk : Instruction → Bool
  | .set _ v => v ≤ 32767
  | .push v => v ≤ 32767
  | .eq _ a b => a ≤ 32767 && b ≤ 32767
  | .gt _ a b => a ≤ 32767 && b ≤ 32767
  | .add _ a b => a ≤ 32767 && b ≤ 32767
  | .mult _ a b => a ≤ 32767 && b ≤ 32767
  | .mod _ a b => a ≤ 32767 && b ≤ 32767
  | .and _ a b => a ≤ 32767 && b ≤ 32767
  | .or _ a b => a ≤ 32767 && b ≤ 32767
  | .not _ a => a ≤ 32767
  | .wmem _ v => v ≤ 32767
  | _ => true

/-- Any register cell changed by a write through a `Location` now holds
the written value, and memory is untouched (register case) — and
symmetrically. -/
theorem write_changed_le (m : Machine) (l : Location) (v : Nat)
    (hv : v ≤ 32767) :
    (∀ k, (write_to_location m l v).registers.getD k 0 ≠ m.registers.getD k 0 →
      (write_to_location m l v).registers.getD k 0 ≤ 32767) ∧
    (∀ k, (write_to_location m l v).mem.getD k 0 ≠ m.mem.getD k 0 →
      (write_to_location m l v).mem.getD k 0 ≤ 32767) := by
  cases l with
  | address a =>
    constructor
    · intro k hk
      exact absurd rfl hk
    · intro k hk
      simp only [write_to_location] at hk ⊢
      rw [getD_set_changed _ _ _ _ hk]
      exact hv
  | register r =>
    constructor
    · intro k hk
      simp only [write_to_location] at hk ⊢
      rw [getD_set_changed _ _ _ _ hk]
      exact hv
    · intro k hk
      exact absurd rfl hk

/-- No register or memory cell changed at all. -/
theorem unchanged_le (m m' : Machine)
    (hreg : m'.registers = m.registers) (hmem : m'.mem = m.mem) :
    (∀ k, m'.registers.getD k 0 ≠ m.registers.getD k 0 →
      m'.registers.getD k 0 ≤ 32767) ∧
    (∀ k, m'.mem.getD k 0 ≠ m.mem.getD k 0 → m'.mem.getD k 0 ≤ 32767) := by
  constructor
  · intro k hk
    rw [hreg] at hk
    exact absurd rfl hk
  · intro k hk
    rw [hmem] at hk
    exact absurd rfl hk

/-- C2 (amended).  Excluding the raw-copy instructions RMEM and POP —
RMEM copies the raw memory cell, and POP copies a raw stack word, both
of which can reachably exceed 32767 (see the counterexample: RMEM can
store 40000, and a CALL fetched at address 32766 pushes 32768 for a
later POP to store) — every register or memory cell an instruction's
execution changes ends up holding a value in 0..=32767, provided the
decoded operands carry the bounds decoding guarantees and the input
queue holds only bytes (stdin is a `VecDeque<u8>`). -/
theorem c2_amended (m : Machine) (i : Instruction) (m' : Machine)
    (out : List Nat) (hwf : i.litsOk = true) (hcopy : i.copiesRaw = false)
    (hstdin : ∀ b ∈ m.stdin, b ≤ 255)
    (h : step m i = .next m' out) :
    (∀ k, m'.registers.getD k 0 ≠ m.registers.getD k 0 →
      m'.registers.getD k 0 ≤ 32767) ∧
    (∀ k, m'.mem.getD k 0 ≠ m.mem.getD k 0 → m'.mem.getD k 0 ≤ 32767) := by
  cases i with
  | halt => exact absurd h (by simp [step])
  | set r v =>
    simp only [step, StepResult.next.injEq] at h
    obtain ⟨rfl, -⟩ := h
    simp only [Instruction.litsOk, decide_eq_true_eq] at hwf
    exact write_changed_le m (.register r) v hwf
  | push v =>
    simp only [step, StepResult.next.injEq] at h
    obtain ⟨rfl, -⟩ := h
    exact unchanged_le _ _ rfl rfl
  | pop l => exact absurd hcopy (by simp [Instruction.copiesRaw])
  | eq l a b =>
    simp only [step, StepResult.next.injEq] at h
    obtain ⟨rfl, -⟩ := h
    refine write_changed_le m l _ ?_
    split <;> omega
  | gt l a b =>
    simp only [step, StepResult.next.injEq] at h
    obtain ⟨rfl, -⟩ := h
    refine write_changed_le m l _ ?_
    split <;> omega
  | jmp a =>
    simp only [step, StepResult.next.injEq] at h
    obtain ⟨rfl, -⟩ := h
    exact unchanged_le _ _ rfl rfl
  | jt v a =>
    simp only [step, StepResult.next.injEq] at h
    obtain ⟨rfl, -⟩ := h
    split <;> exact unchanged_le _ _ rfl rfl
  | jf v a =>
    simp only [step, StepResult.next.injEq] at h
    obtain ⟨rfl, -⟩ := h
    split <;> exact unchanged_le _ _ rfl rfl
  | add l a b =>
    simp only [step, StepResult.next.injEq] at h
    obtain ⟨rfl, -⟩ := h
    exact write_changed_le m l _ (by omega)
  | mult l a b =>
    simp only [step, StepResult.next.injEq] at h
    obtain ⟨rfl, -⟩ := h
    have : (a * b) % 32768 < 32768 := Nat.mod_lt _ (by norm_num)
    exact write_changed_le m l _ (by omega)
  | mod l a b =>
    simp only [Instruction.litsOk, Bool.and_eq_true, decide_eq_true_eq] at hwf
    by_cases hb : b = 0
    · rw [show step m (.mod l a b) = .fatal by simp [step, hb]] at h
      exact absurd h (by simp)
    · rw [show step m (.mod l a b) =
            .next (write_to_location m l (a % b)) [] by simp [step, hb]] at h
      simp only [StepResult.next.injEq] at h
      obtain ⟨rfl, -⟩ := h
      have : a % b < b := Nat.mod_lt _ (Nat.pos_of_ne_zero hb)
      exact write_changed_le m l _ (by omega)
  | and l a b =>
    simp only [step, StepResult.next.injEq] at h
    obtain ⟨rfl, -⟩ := h
    simp only [Instruction.litsOk, Bool.and_eq_true, decide_eq_true_eq] at hwf
    have : a &&& b < 32768 := Nat.and_lt_two_pow a (n := 15) (by omega)
    exact write_changed_le m l _ (by omega)
  | or l a b =>
    simp only [step, StepResult.next.injEq] at h
    obtain ⟨rfl, -⟩ := h
    simp only [Instruction.litsOk, Bool.and_eq_true, decide_eq_true_eq] at hwf
    have : a ||| b < 32768 :=
      Nat.or_lt_two_pow (n := 15) (by omega) (by omega)
    exact write_changed_le m l _ (by omega)
  | not l a =>
    simp only [step, StepResult.next.injEq] at h
    obtain ⟨rfl, -⟩ := h
    have : (65535 - a) &&& 32767 < 32768 :=
      Nat.and_lt_two_pow _ (n := 15) (by omega)
    exact write_changed_le m l _ (by omega)
  | rmem l src => exact absurd hcopy (by simp [Instruction.copiesRaw])
  | wmem dst v =>
    simp only [step, StepResult.next.injEq] at h
    obtain ⟨rfl, -⟩ := h
    simp only [Instruction.litsOk, decide_eq_true_eq] at hwf
    exact write_changed_le m (.address dst) v hwf
  | call a =>
    simp only [step, StepResult.next.injEq] at h
    obtain ⟨rfl, -⟩ := h
    exact unchanged_le _ _ rfl rfl
  | ret =>
    cases hs : m.stack with
    | nil => rw [show step m .ret = .fatal by simp [step, pop_stack, hs]] at h
             exact absurd h (by simp)
    | cons v rest =>
      rw [show step m .ret =
            .next { m with stack := rest, index := v } [] by
          simp [step, pop_stack, hs]] at h
      simp only [StepResult.next.injEq] at h
      obtain ⟨rfl, -⟩ := h
      exact unchanged_le _ _ rfl rfl
  | out v =>
    simp only [step, StepResult.next.injEq] at h
    obtain ⟨rfl, -⟩ := h
    exact unchanged_le _ _ rfl rfl
  | inp l =>
    cases hs : m.stdin with
    | nil => rw [show step m (.inp l) = .host m l by simp [step, hs]] at h
             exact absurd h (by simp)
    | cons b rest =>
      rw [show step m (.inp l) =
            .next (write_to_location { m with stdin := rest } l b) [] by
          simp [step, hs]] at h
      simp only [StepResult.next.injEq] at h
      obtain ⟨rfl, -⟩ := h
      exact write_changed_le { m with stdin := rest } l b
        (le_trans (hstdin b (by rw [hs]; exact List.mem_cons_self b rest)) (by norm_num))
  | noop =>
    simp only [step, StepResult.next.injEq] at h
    obtain ⟨rfl, -⟩ := h
    exact unchanged_le _ _ rfl rfl

theorem c2_witness :
    (∀ k, ((Machine.new []).registers.set 0 7).getD k 0 ≠
        (Machine.new []).registers.getD k 0 →
      ((Machine.new []).registers.set 0 7).getD k 0 ≤ 32767) ∧
    (∀ k, (Machine.new []).mem.getD k 0 ≠ (Machine.new []).mem.getD k 0 →
      (Machine.new []).mem.getD k 0 ≤ 32767) :=
  c2_amended (Machine.new []) (.set 0 7)
    { Machine.new [] with registers := (Machine.new []).registers.set 0 7 } []
    (by decide) (by decide) (by intro b hb; cases hb)
    rfl

/-- The patch hook never moves the program counter. -/
theorem patch_hook_index (m : Machine) : (patch_hook m).index = m.index := by
  unfold patch_hook
  split <;> rfl

/-- The patch hook never touches the stack or the input queue. -/
theorem patch_hook_stack_stdin (m : Machine) :
    (patch_hook m).stack = m.stack ∧ (patch_hook m).stdin = m.stdin := by
  unfold patch_hook
  split <;> exact ⟨rfl, rfl⟩

/-- C6.  Whenever an `IN` instruction's input read handles a
meta-command instead of yielding a byte (`read_stdin` returns
`Ok(None)`), `Machine::run` stores nothing and calls `redo_stdin`: the
program counter is rewound by exactly the two cells the decoded `IN`
occupied — back to the `IN` opcode's address — the five bytes
`l o o k \n` are placed at the front of the input queue ahead of
anything already pending, and registers, memory and stack are
untouched. -/
theorem c6_redo_stdin (m m₁ : Machine) (l : Location)
    (h : read_instruction m = some (.inp l, m₁)) :
    (redo_stdin m₁).index + 2 = m₁.index ∧
    (redo_stdin m₁).index = m.index ∧
    (redo_stdin m₁).stdin = 108 :: 111 :: 111 :: 107 :: 10 :: m₁.stdin ∧
    (redo_stdin m₁).registers = m₁.registers ∧
    (redo_stdin m₁).mem = m₁.mem ∧
    (redo_stdin m₁).stack = m₁.stack := by
  obtain ⟨-, -, -, -, hidx⟩ := decode_frame (patch_hook m) _ _ h
  rw [patch_hook_index] at hidx
  simp only [instrSize] at hidx
  refine ⟨?_, ?_, rfl, rfl, rfl, rfl⟩
  · simp only [redo_stdin]
    omega
  · simp only [redo_stdin]
    omega

def c6m0 : Machine :=
  { mem := [20, 32768], registers := List.replicate 8 0, stack := [],
    index := 0, stdin := [] }

def c6m1 : Machine :=
  { mem := [20, 32768], registers := List.replicate 8 0, stack := [],
    index := 2, stdin := [] }

theorem c6_witness :
    (redo_stdin c6m1).index + 2 = c6m1.index ∧
    (redo_stdin c6m1).index = c6m0.index ∧
    (redo_stdin c6m1).stdin = 108 :: 111 :: 111 :: 107 :: 10 :: c6m1.stdin ∧
    (redo_stdin c6m1).registers = c6m1.registers ∧
    (redo_stdin c6m1).mem = c6m1.mem ∧
    (redo_stdin c6m1).stack = c6m1.stack :=
  c6_redo_stdin c6m0 c6m1 (.register 0) (by decide)

/-- C7.  The pre-fetch patch hook fires exactly when the program counter
is 0x178B and register 7 holds 1.  When it does not fire it changes
nothing; when it fires it overwrites memory cell 0x178B with 18 (the
RET opcode), sets register 0 to 6 and register 7 to 0x6486, and leaves
every other memory cell, registers 1 through 6, the stack, the program
counter and the input queue unchanged.  The fetch after the hook reads
cells but never writes memory or registers. -/
theorem c7_patch_hook (m : Machine) (hm : m.mem.length = 32768)
    (hr : m.registers.length = 8) :
    (¬ (m.index = 0x178b ∧ m.registers.getD 7 0 = 1) → patch_hook m = m) ∧
    (m.index = 0x178b ∧ m.registers.getD 7 0 = 1 →
      (patch_hook m).mem.getD 0x178b 0 = 18 ∧
      (patch_hook m).registers.getD 0 0 = 6 ∧
      (patch_hook m).registers.getD 7 0 = 0x6486 ∧
      (∀ a, a ≠ 0x178b → (patch_hook m).mem.getD a 0 = m.mem.getD a 0) ∧
      (∀ r, 1 ≤ r → r ≤ 6 →
        (patch_hook m).registers.getD r 0 = m.registers.getD r 0) ∧
      (patch_hook m).stack = m.stack ∧
      (patch_hook m).index = m.index ∧
      (patch_hook m).stdin = m.stdin) ∧
    (∀ i m₁, decode (patch_hook m) = some (i, m₁) →
      m₁.mem = (patch_hook m).mem ∧ m₁.registers = (patch_hook m).registers ∧
      m₁.stack = (patch_hook m).stack ∧ m₁.stdin = (patch_hook m).stdin) := by
  refine ⟨?_, ?_, ?_⟩
  · intro hc
    unfold patch_hook
    rw [if_neg hc]
  · intro hc
    have hfire : patch_hook m =
        { m with
            mem := m.mem.set 0x178b 18,
            registers := (m.registers.set 0 6).set 7 0x6486 } := by
      unfold patch_hook
      rw [if_pos hc]
    rw [hfire]
    refine ⟨?_, ?_, ?_, ?_, ?_, rfl, rfl, rfl⟩
    · exact getD_set_self _ _ _ (by omega)
    · rw [getD_set_ne _ _ _ _ (by omega)]
      exact getD_set_self _ _ _ (by omega)
    · exact getD_set_self _ _ _ (by simp [hr])
    · intro a hane
      exact getD_set_ne _ _ _ _ hane
    · intro r h1 h6
      rw [getD_set_ne _ _ _ _ (by omega), getD_set_ne _ _ _ _ (by omega)]
  · intro i m₁ hdec
    obtain ⟨h1, h2, h3, h4, -⟩ := decode_frame _ _ _ hdec
    exact ⟨h1, h2, h3, h4⟩

def c7m : Machine :=
  { mem := List.replicate 32768 0, registers := [0, 0, 0, 0, 0, 0, 0, 1],
    stack := [], index := 0x178b, stdin := [] }

theorem c7_witness :
    (¬ (c7m.index = 0x178b ∧ c7m.registers.getD 7 0 = 1) →
      patch_hook c7m = c7m) ∧
    (c7m.index = 0x178b ∧ c7m.registers.getD 7 0 = 1 →
      (patch_hook c7m).mem.getD 0x178b 0 = 18 ∧
      (patch_hook c7m).registers.getD 0 0 = 6 ∧
      (patch_hook c7m).registers.getD 7 0 = 0x6486 ∧
      (∀ a, a ≠ 0x178b → (patch_hook c7m).mem.getD a 0 = c7m.mem.getD a 0) ∧
      (∀ r, 1 ≤ r → r ≤ 6 →
        (patch_hook c7m).registers.getD r 0 = c7m.registers.getD r 0) ∧
      (patch_hook c7m).stack = c7m.stack ∧
      (patch_hook c7m).index = c7m.index ∧
      (patch_hook c7m).stdin = c7m.stdin) ∧
    (∀ i m₁, decode (patch_hook c7m) = some (i, m₁) →
      m₁.mem = (patch_hook c7m).mem ∧
      m₁.registers = (patch_hook c7m).registers ∧
      m₁.stack = (patch_hook c7m).stack ∧
      m₁.stdin = (patch_hook c7m).stdin) :=
  c7_patch_hook c7m (by show (List.replicate 32768 0).length = 32768; rw [List.length_replicate]) rfl

/-- C8.  A decoded `CALL tgt` sits on a post-decode program counter two
cells past the opcode; executing it pushes exactly that address (the
address of the next instruction) and jumps to `tgt`, and an immediately
following `RET` with no intervening stack operation pops it back:
the program counter returns to the address just after the CALL and the
stack is exactly what it was before the CALL. -/
theorem c8_call_ret (m m₁ : Machine) (a : Nat)
    (h : decode m = some (.call a, m₁)) (hidx : m₁.index < 65536) :
    m₁.index = m.index + 2 ∧
    step m₁ (.call a) =
      .next { m₁ with stack := m₁.index :: m₁.stack, index := a } [] ∧
    step { m₁ with stack := m₁.index :: m₁.stack, index := a }
        Instruction.ret = .next m₁ [] := by
  obtain ⟨-, -, -, -, hi⟩ := decode_frame m _ _ h
  refine ⟨by simpa [instrSize] using hi, ?_, ?_⟩
  · simp only [step]
    rw [Nat.mod_eq_of_lt hidx]
  · simp only [step, pop_stack]

def c8m0 : Machine :=
  { mem := [17, 6], registers := [], stack := [], index := 0, stdin := [] }

def c8m1 : Machine :=
  { mem := [17, 6], registers := [], stack := [], index := 2, stdin := [] }

theorem c8_witness :
    c8m1.index = c8m0.index + 2 ∧
    step c8m1 (.call 6) =
      .next { c8m1 with stack := c8m1.index :: c8m1.stack, index := 6 } [] ∧
    step { c8m1 with stack := c8m1.index :: c8m1.stack, index := 6 }
        Instruction.ret = .next c8m1 [] :=
  c8_call_ret c8m0 c8m1 6 (by decide) (by decide)


/-- The memo table of `struct Search` (`src/routine.rs`): a `HashMap`
from register pairs to register pairs, modelled as an association list
with most-recent-first lookup (`insert` shadows older entries exactly
as `HashMap::insert` replaces them). -/
def memoLookup (memo : List ((Nat × Nat) × (Nat × Nat))) (k : Nat × Nat) :
    Option (Nat × Nat) :=
  match memo with
  | [] => none
  | (k', r) :: rest => if k = k' then some r else memoLookup rest k

/-- `HashMap::insert`. -/
def memoInsert (memo : List ((Nat × Nat) × (Nat × Nat))) (k r : Nat × Nat) :
    List ((Nat × Nat) × (Nat × Nat)) :=
  (k, r) :: memo

/-- `Search::find` (`src/routine.rs`): the guest's two-argument
recursive routine with memoization, parameterized by the candidate
register-7 value `v`.  The `u16` sum `regs.1 + 1` is exact here; the
routine only ever calls itself with second arguments at most 32767, so
the 16-bit wraparound is never reached.  The mask `& 0x7fff` is
`&&& 32767`. -/
def find (v : Nat) : Nat → Nat → List ((Nat × Nat) × (Nat × Nat)) →
    (Nat × Nat) × List ((Nat × Nat) × (Nat × Nat))
  | x, y, memo =>
    match memoLookup memo (x, y) with
    | some ret => (ret, memo)
    | none =>
      match x, y with
      | 0, y =>
        ((((y + 1) &&& 32767), y), memoInsert memo (0, y) ((y + 1) &&& 32767, y))
      | x' + 1, 0 =>
        let res := find v x' v memo
        (res.1, memoInsert res.2 (x' + 1, 0) res.1)
      | x' + 1, y' + 1 =>
        let r1 := find v (x' + 1) y' memo
        let r2 := find v x' r1.1.1 r1.2
        (r2.1, memoInsert r2.2 (x' + 1, y' + 1) r2.1)
termination_by x y memo => (x, y)

/-- The design-level reference recursion of spec §4.8:
`f(0,y) = ((y+1) mod 32768, y)`, `f(x,0) = f(x-1,v)`,
`f(x,y) = f(x-1, f(x,y-1).first)`. -/
def fRef (v : Nat) : Nat → Nat → Nat × Nat
  | 0, y => ((y + 1) % 32768, y)
  | x + 1, 0 => fRef v x v
  | x + 1, y + 1 => fRef v x (fRef v (x + 1) y).1
termination_by x y => (x, y)

/-- A memo table is coherent when every entry stores the reference
value of its key. -/
def Coherent (v : Nat) (memo : List ((Nat × Nat) × (Nat × Nat))) : Prop :=
  ∀ k r, memoLookup memo k = some r → r = fRef v k.1 k.2

theorem coherent_nil (v : Nat) : Coherent v [] := by
  intro k r h
  simp [memoLookup] at h

theorem coherent_insert (v : Nat) (memo : List ((Nat × Nat) × (Nat × Nat)))
    (k r : Nat × Nat) (hc : Coherent v memo) (hr : r = fRef v k.1 k.2) :
    Coherent v (memoInsert memo k r) := by
  intro k' r' h
  unfold memoInsert memoLookup at h
  split at h
  · next heq =>
    cases h
    rw [heq]
    exact hr
  · exact hc k' r' h

/-- On any coherent memo, the memoized `Search::find` returns exactly
the reference recursion's value and keeps the memo coherent. -/
theorem find_main (v : Nat) : ∀ x y memo, Coherent v memo →
    (find v x y memo).1 = fRef v x y ∧ Coherent v (find v x y memo).2 := by
  intro x
  induction x with
  | zero =>
    intro y memo hc
    rw [find]
    cases hl : memoLookup memo (0, y) with
    | some ret =>
      simp only [hl]
      exact ⟨hc _ _ hl, hc⟩
    | none =>
      simp only [hl]
      have hmask : (y + 1) &&& 32767 = (y + 1) % 32768 := by
        simpa using Nat.and_pow_two_sub_one_eq_mod (y + 1) 15
      constructor
      · show ((y + 1) &&& 32767, y) = fRef v 0 y
        rw [fRef, hmask]
      · exact coherent_insert v memo (0, y) _ hc (by rw [fRef, hmask])
  | succ x' ih =>
    intro y
    induction y with
    | zero =>
      intro memo hc
      rw [find]
      cases hl : memoLookup memo (x' + 1, 0) with
      | some ret =>
        simp only [hl]
        exact ⟨hc _ _ hl, hc⟩
      | none =>
        simp only [hl]
        obtain ⟨h1, h2⟩ := ih v memo hc
        constructor
        · show (find v x' v memo).1 = fRef v (x' + 1) 0
          rw [fRef]
          exact h1
        · exact coherent_insert v _ (x' + 1, 0) _ h2 (by rw [fRef]; exact h1)
    | succ y' ihy =>
      intro memo hc
      rw [find]
      cases hl : memoLookup memo (x' + 1, y' + 1) with
      | some ret =>
        simp only [hl]
        exact ⟨hc _ _ hl, hc⟩
      | none =>
        simp only [hl]
        obtain ⟨h1, h2⟩ := ihy memo hc
        obtain ⟨h3, h4⟩ := ih (find v (x' + 1) y' memo).1.1 (find v (x' + 1) y' memo).2 h2
        constructor
        · show (find v x' (find v (x' + 1) y' memo).1.1 (find v (x' + 1) y' memo).2).1 =
            fRef v (x' + 1) (y' + 1)
          rw [fRef, h3, h1]
        · exact coherent_insert v _ (x' + 1, y' + 1) _ h4 (by rw [fRef, h3, h1])

/-- The per-candidate acceptance test of `find_magic_value`
(`src/routine.rs`): accept `r7` when `Search::new(r7).find((4,1)).0`
equals 6; each candidate starts from a fresh, empty memo. -/
def acceptsCandidate (v : Nat) : Bool :=
  (find v 4 1 []).1.1 == 6

/-- C9.  For every candidate `v`, and on every coherent memo (the empty
table each candidate starts with is coherent, and every table the
evaluation builds stays coherent), the memoized `Search::find` computes
exactly the reference recursion `f` of the spec at every argument pair,
and the search accepts `v` exactly when `f(4,1).first = 6`. -/
theorem c9_find_refines (v x y : Nat)
    (memo : List ((Nat × Nat) × (Nat × Nat))) (hc : Coherent v memo) :
    (find v x y memo).1 = fRef v x y ∧
    Coherent v (find v x y memo).2 ∧
    (acceptsCandidate v = true ↔ (fRef v 4 1).1 = 6) := by
  obtain ⟨h1, h2⟩ := find_main v x y memo hc
  refine ⟨h1, h2, ?_⟩
  unfold acceptsCandidate
  rw [(find_main v 4 1 [] (coherent_nil v)).1]
  exact beq_iff_eq

theorem c9_witness :
    (find 1 0 0 []).1 = fRef 1 0 0 ∧
    Coherent 1 (find 1 0 0 []).2 ∧
    (acceptsCandidate 1 = true ↔ (fRef 1 4 1).1 = 6) :=
  c9_find_refines 1 0 0 [] (coherent_nil 1)

/-- A square of the orb puzzle board (`enum Square` in `src/grid.rs`). -/
inductive Square where
  | num (n : Int)
  | add
  | sub
  | mult
deriving DecidableEq, Repr

/-- The fixed 4×4 board, row-major exactly as the `GRID` constant:
`GRID[y][x]`. -/
def GRID : List (List Square) :=
  [[.mult, .num 8, .sub, .num 1],
   [.num 4, .mult, .num 11, .mult],
   [.add, .num 4, .sub, .num 18],
   [.num 22, .sub, .num 9, .mult]]

/-- `GRID[y][x]`.  The searches below only index within the board, so
the default is never reached. -/
def gridAt (x y : Nat) : Square :=
  (GRID.getD y []).getD x .add

/-- A movement direction, as the labels the source pushes on paths. -/
inductive Dir where
  | left
  | right
  | up
  | down
deriving DecidableEq, Repr

/-- One work-queue item of `traverse_grid`:
`(x, y, weight, op, path)`. -/
structure Entry where
  x : Nat
  y : Nat
  weight : Int
  op : Option Square
  path : List Dir
deriving DecidableEq, Repr

/-- The component of an entry recorded in the `visited` set. -/
def keyOf (e : Entry) : Nat × Nat × Int × Option Square :=
  (e.x, e.y, e.weight, e.op)

/-- The `match (GRID[y][x], op)` of `traverse_grid`: a number square
applies and clears the pending operator (signed, exact arithmetic); an
operator square with no pending operator becomes pending; the remaining
combinations panic in the source, modelled as `none`. -/
def applySquare (sq : Square) (w : Int) (op : Option Square) :
    Option (Int × Option Square) :=
  match sq, op with
  | .num n, some .add => some (w + n, none)
  | .num n, some .sub => some (w - n, none)
  | .num n, some .mult => some (w * n, none)
  | .add, none => some (w, some .add)
  | .sub, none => some (w, some .sub)
  | .mult, none => some (w, some .mult)
  | _, _ => none

/-- `queue.push_back` guarded by a condition (the source's four
`if cond && !visited.contains(..)` pushes). -/
def appendIf (q : List Entry) (c : Prop) [Decidable c] (e : Entry) :
    List Entry :=
  if c then q ++ [e] else q

/-- The four guarded pushes of `traverse_grid`, in source order: left
(`x > 0 && y != 3`), right (`x < 3`), up (`y > 0`), down
(`y < 3 && x != 0`), each skipped when the successor's key is already
visited. -/
def pushMoves (e : Entry) (w' : Int) (op' : Option Square)
    (rest : List Entry)
    (visited : List (Nat × Nat × Int × Option Square)) : List Entry :=
  appendIf
    (appendIf
      (appendIf
        (appendIf rest
          (0 < e.x ∧ e.y ≠ 3 ∧ (e.x - 1, e.y, w', op') ∉ visited)
          ⟨e.x - 1, e.y, w', op', e.path ++ [Dir.left]⟩)
        (e.x < 3 ∧ (e.x + 1, e.y, w', op') ∉ visited)
        ⟨e.x + 1, e.y, w', op', e.path ++ [Dir.right]⟩)
      (0 < e.y ∧ (e.x, e.y - 1, w', op') ∉ visited)
      ⟨e.x, e.y - 1, w', op', e.path ++ [Dir.up]⟩)
    (e.y < 3 ∧ e.x ≠ 0 ∧ (e.x, e.y + 1, w', op') ∉ visited)
    ⟨e.x, e.y + 1, w', op', e.path ++ [Dir.down]⟩

/-- The BFS loop of `traverse_grid`, with explicit fuel (the source
loops until the queue empties or the goal path is printed; every claim
below is quantified over all fuels).  `some path` models the printed
path; `none` models loop exit, fuel exhaustion, or a panic in the
square match. -/
def bfsRun : Nat → List Entry →
    List (Nat × Nat × Int × Option Square) → Option (List Dir)
  | 0, _, _ => none
  | _ + 1, [], _ => none
  | fuel + 1, e :: rest, visited =>
    if keyOf e ∈ visited then
      bfsRun fuel rest visited
    else
      match applySquare (gridAt e.x e.y) e.weight e.op with
      | none => none
      | some (w', op') =>
        if e.x = 3 ∧ e.y = 0 then
          if w' = 30 then some e.path
          else bfsRun fuel rest (keyOf e :: visited)
        else
          bfsRun fuel (pushMoves e w' op' rest (keyOf e :: visited))
            (keyOf e :: visited)

/-- The search's start state: position (0,3), accumulator 0, pending
`Add`, empty path. -/
def initialQueue : List Entry :=
  [⟨0, 3, 0, some .add, []⟩]

/-- Replaying one direction of a path, claim-style: apply the current
square to the accumulator, then move, refusing a move off the board, a
left move from row `y = 3`, or a down move from column `x = 0` (the
same geometric constraints the source's pushes enforce). -/
def stepState (s : Option (Nat × Nat × Int × Option Square)) (d : Dir) :
    Option (Nat × Nat × Int × Option Square) :=
  match s with
  | none => none
  | some (x, y, w, op) =>
    match applySquare (gridAt x y) w op with
    | none => none
    | some (w', op') =>
      match d with
      | .left => if 0 < x ∧ y ≠ 3 then some (x - 1, y, w', op') else none
      | .right => if x < 3 then some (x + 1, y, w', op') else none
      | .up => if 0 < y then some (x, y - 1, w', op') else none
      | .down => if y < 3 ∧ x ≠ 0 then some (x, y + 1, w', op') else none

/-- Replay a whole path from the start state (0,3), accumulator 0,
pending `Add`. -/
def replay (p : List Dir) : Option (Nat × Nat × Int × Option Square) :=
  p.foldl stepState (some (0, 3, 0, some Square.add))

/-- Full evaluation of a path: replay it, then apply the final square;
the result is the final position and accumulator. -/
def finalEval (p : List Dir) : Option (Nat × Nat × Int) :=
  match replay p with
  | none => none
  | some (x, y, w, op) =>
    match applySquare (gridAt x y) w op with
    | none => none
    | some (w', _) => some (x, y, w')

/-- The claim's two geometric constraints, formalized directly on the
path's positions: never move left while `y = 3`, never move down while
`x = 0` (and track positions with the same arithmetic). -/
def claimMovesOk : Nat → Nat → List Dir → Bool
  | _, _, [] => true
  | x, y, .left :: rest => decide (y ≠ 3) && claimMovesOk (x - 1) y rest
  | x, y, .right :: rest => claimMovesOk (x + 1) y rest
  | x, y, .up :: rest => claimMovesOk x (y - 1) rest
  | x, y, .down :: rest => decide (x ≠ 0) && claimMovesOk x (y + 1) rest

/-- A queue entry is coherent when replaying its recorded path
reproduces its position, accumulator and pending operator. -/
def EntryInv (e : Entry) : Prop :=
  replay e.path = some (keyOf e)

theorem foldl_stepState_none (l : List Dir) :
    l.foldl stepState none = none := by
  induction l with
  | nil => rfl
  | cons d rest ih => simpa [stepState] using ih

theorem replay_append (p : List Dir) (d : Dir) :
    replay (p ++ [d]) = stepState (replay p) d := by
  simp [replay, List.foldl_append]

theorem appendIf_inv (q : List Entry) (c : Prop) [Decidable c] (e : Entry)
    (hq : ∀ x ∈ q, EntryInv x) (he : c → EntryInv e) :
    ∀ x ∈ appendIf q c e, EntryInv x := by
  intro x hx
  unfold appendIf at hx
  split at hx
  · next hc =>
    rcases List.mem_append.mp hx with h | h
    · exact hq x h
    · rw [List.mem_singleton.mp h]
      exact he hc
  · exact hq x hx

theorem pushMoves_inv (e : Entry) (w' : Int) (op' : Option Square)
    (rest : List Entry)
    (visited : List (Nat × Nat × Int × Option Square))
    (hrest : ∀ x ∈ rest, EntryInv x) (he : EntryInv e)
    (happ : applySquare (gridAt e.x e.y) e.weight e.op = some (w', op')) :
    ∀ x ∈ pushMoves e w' op' rest visited, EntryInv x := by
  unfold pushMoves
  apply appendIf_inv
  apply appendIf_inv
  apply appendIf_inv
  apply appendIf_inv
  · exact hrest
  · intro hc
    show replay (e.path ++ [Dir.left]) = _
    rw [replay_append, he]
    simp [stepState, keyOf, happ, hc.1, hc.2.1]
  · intro hc
    show replay (e.path ++ [Dir.right]) = _
    rw [replay_append, he]
    simp [stepState, keyOf, happ, hc.1]
  · intro hc
    show replay (e.path ++ [Dir.up]) = _
    rw [replay_append, he]
    simp [stepState, keyOf, happ, hc.1]
  · intro hc
    show replay (e.path ++ [Dir.down]) = _
    rw [replay_append, he]
    simp [stepState, keyOf, happ, hc.1, hc.2.1]

/-- Any path the BFS emits, with any fuel, from any coherent queue,
fully evaluates to position (3,0) with accumulator exactly 30. -/
theorem bfsRun_sound : ∀ (fuel : Nat) (queue : List Entry)
    (visited : List (Nat × Nat × Int × Option Square)),
    (∀ e ∈ queue, EntryInv e) →
    ∀ p, bfsRun fuel queue visited = some p →
      finalEval p = some (3, 0, 30) := by
  intro fuel
  induction fuel with
  | zero =>
    intro queue visited hq p h
    exact Option.noConfusion h
  | succ fuel ih =>
    intro queue visited hq p h
    match queue with
    | [] => exact Option.noConfusion h
    | e :: rest =>
      rw [bfsRun] at h
      by_cases hv : keyOf e ∈ visited
      · rw [if_pos hv] at h
        exact ih rest visited (fun x hx => hq x (List.mem_cons_of_mem e hx)) p h
      · rw [if_neg hv] at h
        split at h
        · exact Option.noConfusion h
        · rename_i w' op' happ
          by_cases hgoal : e.x = 3 ∧ e.y = 0
          · rw [if_pos hgoal] at h
            by_cases h30 : w' = 30
            · rw [if_pos h30] at h
              cases h
              have hinv := hq e (List.mem_cons_self e rest)
              unfold EntryInv at hinv
              unfold finalEval
              rw [hinv]
              simp only [keyOf]
              simp only [happ]
              rw [hgoal.1, hgoal.2, h30]
            · rw [if_neg h30] at h
              exact ih rest _ (fun x hx => hq x (List.mem_cons_of_mem e hx)) p h
          · rw [if_neg hgoal] at h
            refine ih _ _ ?_ p h
            exact pushMoves_inv e w' op' rest _
              (fun x hx => hq x (List.mem_cons_of_mem e hx))
              (hq e (List.mem_cons_self e rest)) happ

/-- A path that replays successfully from any state never moves left
while `y = 3` nor down while `x = 0`. -/
theorem claimMovesOk_of_replay : ∀ (p : List Dir) (x y : Nat) (w : Int)
    (op : Option Square) (k : Nat × Nat × Int × Option Square),
    p.foldl stepState (some (x, y, w, op)) = some k →
    claimMovesOk x y p = true := by
  intro p
  induction p with
  | nil =>
    intro x y w op k h
    rfl
  | cons d rest ih =>
    intro x y w op k h
    rw [List.foldl_cons] at h
    cases hs : stepState (some (x, y, w, op)) d with
    | none =>
      rw [hs, foldl_stepState_none] at h
      exact Option.noConfusion h
    | some s' =>
      rw [hs] at h
      cases d with
      | left =>
        simp only [stepState] at hs
        split at hs
        · exact Option.noConfusion hs
        · rename_i w' op' happ
          split at hs
          · next hcond =>
            cases hs
            simp only [claimMovesOk, Bool.and_eq_true, decide_eq_true_eq]
            exact ⟨hcond.2, ih _ _ _ _ _ h⟩
          · exact Option.noConfusion hs
      | right =>
        simp only [stepState] at hs
        split at hs
        · exact Option.noConfusion hs
        · rename_i w' op' happ
          split at hs
          · cases hs
            simpa only [claimMovesOk] using ih _ _ _ _ _ h
          · exact Option.noConfusion hs
      | up =>
        simp only [stepState] at hs
        split at hs
        · exact Option.noConfusion hs
        · rename_i w' op' happ
          split at hs
          · cases hs
            simpa only [claimMovesOk] using ih _ _ _ _ _ h
          · exact Option.noConfusion hs
      | down =>
        simp only [stepState] at hs
        split at hs
        · exact Option.noConfusion hs
        · rename_i w' op' happ
          split at hs
          · next hcond =>
            cases hs
            simp only [claimMovesOk, Bool.and_eq_true, decide_eq_true_eq]
            exact ⟨hcond.2, ih _ _ _ _ _ h⟩
          · exact Option.noConfusion hs

/-- C10.  Whatever the fuel, if the grid search emits a path, that path
— evaluated over the fixed board from (0,3) with accumulator 0 and a
pending Add, number squares applying and clearing the pending operator,
operator squares becoming pending, in exact signed arithmetic — ends at
(3,0) with accumulator exactly 30, and never moves left while `y = 3`
nor down while `x = 0`. -/
theorem c10_grid_paths (fuel : Nat) :
    Option.all
      (fun p => decide (finalEval p = some (3, 0, 30)) && claimMovesOk 0 3 p)
      (bfsRun fuel initialQueue []) = true := by
  cases hrun : bfsRun fuel initialQueue [] with
  | none => rfl
  | some p =>
    have hinit : ∀ e ∈ initialQueue, EntryInv e := by
      intro e he
      rw [List.mem_singleton.mp he]
      rfl
    have hfin := bfsRun_sound fuel initialQueue [] hinit p hrun
    have hrep : ∃ k, replay p = some k := by
      unfold finalEval at hfin
      cases hr : replay p with
      | none =>
        rw [hr] at hfin
        exact Option.noConfusion hfin
      | some k => exact ⟨k, rfl⟩
    obtain ⟨k, hk⟩ := hrep
    have hlegal := claimMovesOk_of_replay p 0 3 0 (some Square.add) k hk
    simp [Option.all, hfin, hlegal]
